import Mathlib

/-!
Shallow embedding of `src/scrubadub/scrubbers.py` (the `Scrubber` class):
span sorting (`_sort_filths`), per-document merging (`_merge_filths`),
text reconstruction (`_replace_text`), the collection pipeline
(`iter_filth`, `clean`, `clean_documents`) and the detector registry
(`add_detector`, `remove_detector`, `_check_and_add_detector`).

The `Filth` class itself is not part of the sources (only `scrubbers.py`
is); the few members of it that `scrubbers.py` uses (`beg`, `end`,
`document_name`, `replacement_string`, `replace_with`, `merge`, and the
default `Filth()` used as the initial cursor) are modelled from the spec
where indicated.
-/

namespace Scrub

/-- Modelled from the spec: the `Filth` span record (`Filth` is defined
outside `scrubbers.py`).  `beg`/`end_` are the half-open offsets (`end` is a
Lean keyword, hence `end_`), `documentName` models `document_name` (`none` is
Python `None`), `replacementString` models `replacement_string`
(`fixed_replacement` in the spec), and `replaceWith` models the string
returned by `replace_with(**kwargs)` for the ambient options. -/
structure Filth where
  beg : Nat
  end_ : Nat
  documentName : Option String
  replacementString : Option String
  replaceWith : String
deriving DecidableEq

/-- Modelled from the spec: `Filth.merge` (defined outside `scrubbers.py`)
"combines two spans known to overlap/touch into one spanning `min(begin)`,
`max(end)`", retaining the first span's metadata. -/
def Filth.merge (a b : Filth) : Filth :=
  { a with beg := min a.beg b.beg, end_ := max a.end_ b.end_ }

/-- Modelled from the spec: the default `Filth()` used in `_replace_text`
as the initial cursor spans `[0, 0)` of no document. -/
def emptyFilth : Filth :=
  { beg := 0, end_ := 0, documentName := none, replacementString := none, replaceWith := "" }

/-- Python's `<` on single characters, comparing Unicode code points. -/
def charLt (c d : Char) : Prop :=
  c.toNat < d.toNat

instance : DecidableRel charLt := fun c d => by
  unfold charLt; infer_instance

/-- Python's lexicographic `<` on strings, as a structural recursion over
the character lists (Python compares strings code point by code point). -/
def strLtL : List Char → List Char → Prop
  | _, [] => False
  | [], _ :: _ => True
  | c :: cs, d :: ds => charLt c d ∨ (c = d ∧ strLtL cs ds)

instance : DecidableRel strLtL := fun a b => by
  induction a generalizing b with
  | nil => cases b <;> (unfold strLtL; infer_instance)
  | cons c cs ih =>
    cases b with
    | nil => unfold strLtL; infer_instance
    | cons d ds => unfold strLtL; have := ih ds; infer_instance

/-- Python's `<` on strings. -/
def strLt (a b : String) : Prop :=
  strLtL a.data b.data

/-- Python's `<=` on strings (total orders: `a <= b` iff not `b < a`). -/
def strLe (a b : String) : Prop :=
  ¬ strLt b a

instance : DecidableRel strLt := fun a b => by
  unfold strLt; infer_instance

instance : DecidableRel strLe := fun a b => by
  unfold strLe; infer_instance


/-- The `str(...)` applied to `document_name` in `_sort_filths`'s sort key:
Python's `str(None)` is the string `"None"`. -/
def docStr (f : Filth) : String :=
  match f.documentName with
  | none => "None"
  | some s => s

/-- The sort key order of `_sort_filths`: Python tuples
`(str(document_name), beg, -end)` compared lexicographically (so on an
`end` tie-break the larger `end` comes first). -/
def pyKeyLe (a b : Filth) : Prop :=
  strLt (docStr a) (docStr b) ∨
    (docStr a = docStr b ∧ (a.beg < b.beg ∨ (a.beg = b.beg ∧ b.end_ ≤ a.end_)))

instance : DecidableRel pyKeyLe := fun a b => by
  unfold pyKeyLe; infer_instance


/-- `Scrubber._sort_filths`: Python's stable ascending sort by the key
`(str(document_name), beg, -end)`; `insertionSort` with the reflexive
total preorder `pyKeyLe` is stable in the same way. -/
def sortFilths (l : List Filth) : List Filth :=
  l.insertionSort pyKeyLe

/-- The `document_names` list computed in `_merge_filths`: the distinct
`document_name`s of the list, with `None` first (when present) followed by
the named documents sorted lexicographically. -/
def docNamesOf (l : List Filth) : List (Option String) :=
  let named := ((l.filterMap (fun f => f.documentName)).dedup).insertionSort strLe
  if l.any (fun f => f.documentName.isNone) then
    none :: named.map some
  else
    named.map some

/-- The inner loop of `_merge_filths` over one document's sorted list:
the running `filth` is emitted when `filth.end < next_filth.beg` and
otherwise replaced by `filth.merge(next_filth)`; the final `filth` is
always emitted. -/
def mergeRun (current : Filth) : List Filth → List Filth
  | [] => [current]
  | n :: rest =>
    if current.end_ < n.beg then current :: mergeRun n rest
    else mergeRun (current.merge n) rest

/-- One document's pass of `_merge_filths`: seed the run with the first
span of the sorted per-document list. -/
def mergeDoc : List Filth → List Filth
  | [] => []
  | f :: rest => mergeRun f rest

/-- The `for document_name in document_names` loop of `_merge_filths`:
filter the spans of each document, sort them, and run the merge fold. -/
def mergePerDocs (l : List Filth) : List (Option String) → List Filth
  | [] => []
  | d :: ds =>
    mergeDoc (sortFilths (l.filter (fun f => f.documentName == d))) ++ mergePerDocs l ds

/-- `Scrubber._merge_filths`: the empty list yields nothing; otherwise the
spans are grouped per document (`None` first, then named documents in
lexicographic order) and merged per group. -/
def mergeFilths (l : List Filth) : List Filth :=
  if l.isEmpty then [] else mergePerDocs l (docNamesOf l)

/-- Python string slicing `text[a:b]` for non-negative indices: the
characters from offset `a` (inclusive) to `b` (exclusive), clamped to the
text, empty when `b <= a`. -/
def pySlice (s : String) (a b : Nat) : String :=
  (s.drop a).take (b - a)

/-- The replacement emitted for one span in `_replace_text`: the span's
`replacement_string` when it is not `None`, else the value of
`replace_with(**kwargs)` (modelled by the `replaceWith` field). -/
def replOf (f : Filth) : String :=
  match f.replacementString with
  | some r => r
  | none => f.replaceWith

/-- The `clean_chunks` list built by `_replace_text`'s loop: alternating
passthrough slices `text[filth.end:next_filth.beg]` and replacements,
closed by the final `text[filth.end:]`.  `cursor` is the `end` of the
previous span (initially `Filth().end = 0`). -/
def replaceChunks (text : String) : Nat → List Filth → List String
  | cursor, [] => [text.drop cursor]
  | cursor, f :: rest => pySlice text cursor f.beg :: replOf f :: replaceChunks text f.end_ rest

/-- `Scrubber._replace_text`: filter to `document_name` when one is given,
sort, walk the spans building `clean_chunks`, and join them. -/
def replaceText (text : String) (filthList : List Filth) (documentName : Option String) : String :=
  let fl := match documentName with
    | none => filthList
    | some _ => filthList.filter (fun f => f.documentName == documentName)
  String.join (replaceChunks text emptyFilth.end_ (sortFilths fl))

/-- The spec's `TextReconstructor.rebuild` walk, written from the spec's
words: copy `text[cursor:span.begin]` as clean passthrough, then emit
`span.fixed_replacement` if set and a computed replacement otherwise, then
advance `cursor = span.end`; after the last span append `text[cursor:]`. -/
def rebuildSpec (text : String) : Nat → List Filth → String
  | cursor, [] => text.drop cursor
  | cursor, f :: rest => pySlice text cursor f.beg ++ replOf f ++ rebuildSpec text f.end_ rest

/-- A detector, seen from `scrubbers.py`: its `iter_filth(text,
document_name=...)` method, i.e. a function from the text and document
name to the produced spans. -/
abbrev DetFn : Type :=
  String → Option String → List Filth

/-- The `Scrubber` state that `clean`/`clean_documents` read: the
`_detectors` dict (name-keyed, insertion ordered) and the
`_post_processors` list (each entry's `process_filth`). -/
structure ScrubberM where
  detectors : List (String × DetFn)
  postProcessors : List (List Filth → List Filth)

/-- `Scrubber._post_process_filth_list`: fold the filth list through each
post processor's `process_filth` in order. -/
def postProcessFilthList (s : ScrubberM) (l : List Filth) : List Filth :=
  s.postProcessors.foldl (fun acc pp => pp acc) l

/-- The detector loop of `iter_filth` (with no excluded detectors): every
registered detector is run over the text in registration order and the
yielded filths are appended into `all_filths`. -/
def collectRaw (dets : List (String × DetFn)) (text : String) (documentName : Option String) :
    List Filth :=
  (dets.map (fun nd => nd.2 text documentName)).flatten

/-- `Scrubber.iter_filth` with `run_post_processors=True`: collect, merge,
then post process. -/
def iterFilth (s : ScrubberM) (text : String) (documentName : Option String) : List Filth :=
  postProcessFilthList s (mergeFilths (collectRaw s.detectors text documentName))

/-- `Scrubber.clean`: list `iter_filth`'s output, post process it (again),
and replace the text. -/
def clean (s : ScrubberM) (text : String) : String :=
  replaceText text (postProcessFilthList s (iterFilth s text none)) none

/-- The shapes `clean_documents` distinguishes with `isinstance`: a list
of texts, a dict of name-keyed texts (modelled as an insertion-ordered
association list), or any other value. -/
inductive Documents where
  | listD (docs : List String)
  | dictD (docs : List (String × String))
  | otherD

/-- The two result shapes of `clean_documents`. -/
inductive DocsResult where
  | listR (docs : List String)
  | dictR (docs : List (String × String))
deriving DecidableEq

/-- The Python exception classes raised by the modelled `Scrubber`
methods: `TypeError` (spec `TypeConstraintViolation` and
`InvalidDocumentCollection`), `KeyError` (spec `DuplicateName`, and
removal of an absent name), `ValueError` (spec `UnknownIdentifier`). -/
inductive PyError where
  | typeError
  | keyError
  | valueError
deriving DecidableEq

/-- `Scrubber.clean_documents`: a list input collects each document's
filth with `document_name = str(index)` and returns a list; a dict input
uses the keys and returns a dict; anything else raises `TypeError`.  The
collated filth list is post processed once more and then `_replace_text`
is run per document with that document's name. -/
def cleanDocuments (s : ScrubberM) : Documents → Except PyError DocsResult
  | .listD docs =>
    let fl := postProcessFilthList s
      ((docs.enum.map (fun it => iterFilth s it.2 (some (Nat.repr it.1)))).flatten)
    .ok (.listR (docs.enum.map (fun it => replaceText it.2 fl (some (Nat.repr it.1)))))
  | .dictD docs =>
    let fl := postProcessFilthList s
      ((docs.map (fun nt => iterFilth s nt.2 (some nt.1))).flatten)
    .ok (.dictR (docs.map (fun nt => (nt.1, replaceText nt.2 fl (some nt.1)))))
  | .otherD => .error .typeError

/-- A detector value as the registry sees it: it carries its `name`
attribute (the detection behaviour is irrelevant to the registry). -/
structure DetectorV where
  name : String
deriving DecidableEq

/-- The possible arguments of `add_detector` and the `isinstance` branches
of its dispatch: a `Detector` instance, a class (`isSub` records whether it
is a subclass of `Detector`; `mk` is the instance its default construction
produces), a string, or any other value (which matches none of the
`isinstance` branches). -/
inductive DetectorArg where
  | inst (d : DetectorV)
  | typ (isSub : Bool) (mk : DetectorV)
  | nameArg (s : String)
  | otherVal

/-- The detector registry: the `_detectors` dict as an insertion-ordered
association list from detector name to detector. -/
abbrev Registry : Type :=
  List (String × DetectorV)

/-- `Scrubber._check_and_add_detector` on a detector instance: raise
`KeyError` when the name is already registered, else insert it.  (The
leading `isinstance(detector, Detector)` check cannot fail for a
`DetectorV`, which is a `Detector` by construction.) -/
def checkAndAddDetector (reg : Registry) (d : DetectorV) : Except PyError Registry :=
  if (reg.map Prod.fst).contains d.name then .error .keyError
  else .ok (reg ++ [(d.name, d)])

/-- `Scrubber.add_detector` with its `isinstance` dispatch: a non-Detector
class raises `TypeError`; a Detector class is instantiated and checked; an
instance is checked; a string is resolved against the
`detector_configuration` catalog (`cat`), raising `ValueError` when
unknown; any other value matches no branch and the method silently
returns with the registry unchanged. -/
def addDetector (cat : List (String × DetectorV)) (reg : Registry) :
    DetectorArg → Except PyError Registry
  | .typ false _ => .error .typeError
  | .typ true mk => checkAndAddDetector reg mk
  | .inst d => checkAndAddDetector reg d
  | .nameArg s =>
    match cat.lookup s with
    | some d => checkAndAddDetector reg d
    | none => .error .valueError
  | .otherVal => .ok reg

/-- `Scrubber.remove_detector` by name: `self._detectors.pop(name)`, which
removes the entry when present and raises `KeyError` otherwise.  (The
instance and class branches reduce to this with `detector.name` and
`detector().name`.) -/
def removeDetector (reg : Registry) (name : String) : Except PyError Registry :=
  if (reg.map Prod.fst).contains name then
    .ok (reg.eraseP (fun kv => kv.1 == name))
  else .error .keyError

/-- The engine states reachable by construction (a fresh `Scrubber` starts
from an empty `_detectors` dict and `add_detector` is called per element
of `detector_list`) followed by any sequence of successful `add_detector`
and `remove_detector` calls; a call that raises leaves the dict as it
was, so it reaches no new state. -/
inductive Reachable (cat : List (String × DetectorV)) : Registry → Prop where
  | init : Reachable cat []
  | addStep {reg reg' : Registry} {arg : DetectorArg} :
      Reachable cat reg → addDetector cat reg arg = .ok reg' → Reachable cat reg'
  | removeStep {reg reg' : Registry} {name : String} :
      Reachable cat reg → removeDetector reg name = .ok reg' → Reachable cat reg'

/-- The spec's requirement on detectors: every span a detector yields for
a document is tagged with that document's identity. -/
def wellTagged (s : ScrubberM) : Prop :=
  ∀ p ∈ s.detectors, ∀ (t : String) (dn : Option String), ∀ f ∈ p.2 t dn,
    f.documentName = dn

/-- The document, begin and end of a span: the data of a merged span that
is independent of which detector produced it. -/
def posOf (f : Filth) : Option String × Nat × Nat :=
  (f.documentName, f.beg, f.end_)

/-- The begin and end offsets of a span. -/
def spanPos (f : Filth) : Nat × Nat :=
  (f.beg, f.end_)

/-- The `(begin, -end)` ordering on span positions (begin ascending, end
descending on ties), the per-document part of the sort key. -/
def spanPosLe (x y : Nat × Nat) : Prop :=
  x.1 < y.1 ∨ (x.1 = y.1 ∧ y.2 ≤ x.2)

/-- A detector that reports the span `[0, 1)` with fixed replacement "X"
in any text. -/
def detX : DetFn :=
  fun _ _ => [⟨0, 1, none, some "X", ""⟩]

/-- A detector that reports the span `[0, 1)` with fixed replacement "Y"
in any text. -/
def detY : DetFn :=
  fun _ _ => [⟨0, 1, none, some "Y", ""⟩]

/-! ## Order lemmas -/

theorem charLt_trans {a b c : Char} (h1 : charLt a b) (h2 : charLt b c) : charLt a c :=
  Nat.lt_trans h1 h2

theorem charLt_trichotomy (a b : Char) : charLt a b ∨ a = b ∨ charLt b a := by
  rcases Nat.lt_trichotomy a.toNat b.toNat with h | h | h
  · exact Or.inl h
  · exact Or.inr (Or.inl (Char.eq_of_val_eq (UInt32.toNat.inj h)))
  · exact Or.inr (Or.inr h)

theorem charLt_asymm {a b : Char} (h1 : charLt a b) (h2 : charLt b a) : False :=
  Nat.lt_irrefl _ (Nat.lt_trans h1 h2)

theorem strLtL_trans : ∀ {a b c : List Char}, strLtL a b → strLtL b c → strLtL a c
  | _, [], _, h1, _ => absurd h1 (by simp [strLtL])
  | _, _ :: _, [], _, h2 => absurd h2 (by simp [strLtL])
  | [], _ :: _, _ :: _, _, _ => by simp [strLtL]
  | a :: as, b :: bs, c :: cs, h1, h2 => by
    simp only [strLtL] at h1 h2 ⊢
    rcases h1 with h1 | ⟨rfl, h1⟩
    · rcases h2 with h2 | ⟨rfl, h2⟩
      · exact Or.inl (charLt_trans h1 h2)
      · exact Or.inl h1
    · rcases h2 with h2 | ⟨rfl, h2⟩
      · exact Or.inl h2
      · exact Or.inr ⟨rfl, strLtL_trans h1 h2⟩

theorem strLtL_asymm : ∀ {a b : List Char}, strLtL a b → strLtL b a → False
  | _, [], h1, _ => absurd h1 (by simp [strLtL])
  | [], _ :: _, _, h2 => absurd h2 (by simp [strLtL])
  | a :: as, b :: bs, h1, h2 => by
    simp only [strLtL] at h1 h2
    rcases h1 with h1 | ⟨rfl, h1⟩
    · rcases h2 with h2 | ⟨rfl, h2⟩
      · exact charLt_asymm h1 h2
      · exact charLt_asymm h1 h1
    · rcases h2 with h2 | ⟨_, h2⟩
      · exact charLt_asymm h2 h2
      · exact strLtL_asymm h1 h2

theorem strLtL_trichotomy : ∀ (a b : List Char), strLtL a b ∨ a = b ∨ strLtL b a
  | [], [] => Or.inr (Or.inl rfl)
  | [], _ :: _ => Or.inl (by simp [strLtL])
  | _ :: _, [] => Or.inr (Or.inr (by simp [strLtL]))
  | a :: as, b :: bs => by
    rcases charLt_trichotomy a b with h | rfl | h
    · exact Or.inl (Or.inl h)
    · rcases strLtL_trichotomy as bs with h | rfl | h
      · exact Or.inl (Or.inr ⟨rfl, h⟩)
      · exact Or.inr (Or.inl rfl)
      · exact Or.inr (Or.inr (Or.inr ⟨rfl, h⟩))
    · exact Or.inr (Or.inr (Or.inl h))

theorem strLt_trans {a b c : String} (h1 : strLt a b) (h2 : strLt b c) : strLt a c :=
  strLtL_trans h1 h2

theorem strLt_trichotomy (a b : String) : strLt a b ∨ a = b ∨ strLt b a := by
  rcases strLtL_trichotomy a.data b.data with h | h | h
  · exact Or.inl h
  · exact Or.inr (Or.inl (String.toList_inj.mp h))
  · exact Or.inr (Or.inr h)

theorem strLe_antisymm {a b : String} (h1 : strLe a b) (h2 : strLe b a) : a = b := by
  rcases strLt_trichotomy a b with h | h | h
  · exact absurd h h2
  · exact h
  · exact absurd h h1

theorem strLe_isTotal : IsTotal String strLe where
  total a b := by
    rcases strLt_trichotomy a b with h | rfl | h
    · exact Or.inl (fun h' => strLtL_asymm h h')
    · exact Or.inl (fun h' => strLtL_asymm h' h')
    · exact Or.inr (fun h' => strLtL_asymm h h')

theorem strLe_isTrans : IsTrans String strLe where
  trans a b c h1 h2 := by
    intro h
    rcases strLt_trichotomy c b with h3 | rfl | h3
    · exact h2 h3
    · exact h1 h
    · exact h1 (strLt_trans h3 h)

theorem strLe_isAntisymm : IsAntisymm String strLe where
  antisymm _ _ h1 h2 := strLe_antisymm h1 h2

theorem pyKeyLe_isTotal : IsTotal Filth pyKeyLe where
  total a b := by
    unfold pyKeyLe
    rcases strLt_trichotomy (docStr a) (docStr b) with h | h | h
    · exact Or.inl (Or.inl h)
    · rcases Nat.lt_trichotomy a.beg b.beg with h2 | h2 | h2
      · exact Or.inl (Or.inr ⟨h, Or.inl h2⟩)
      · rcases Nat.le_total b.end_ a.end_ with h3 | h3
        · exact Or.inl (Or.inr ⟨h, Or.inr ⟨h2, h3⟩⟩)
        · exact Or.inr (Or.inr ⟨h.symm, Or.inr ⟨h2.symm, h3⟩⟩)
      · exact Or.inr (Or.inr ⟨h.symm, Or.inl h2⟩)
    · exact Or.inr (Or.inl h)

theorem pyKeyLe_isTrans : IsTrans Filth pyKeyLe where
  trans a b c hab hbc := by
    unfold pyKeyLe at *
    rcases hab with h1 | ⟨h1, h1'⟩
    · rcases hbc with h2 | ⟨h2, _⟩
      · exact Or.inl (strLt_trans h1 h2)
      · exact Or.inl (h2 ▸ h1)
    · rcases hbc with h2 | ⟨h2, h2'⟩
      · exact Or.inl (h1 ▸ h2)
      · refine Or.inr ⟨h1.trans h2, ?_⟩
        rcases h1' with hb | ⟨hb, he⟩
        · rcases h2' with hb2 | ⟨hb2, _⟩
          · exact Or.inl (Nat.lt_trans hb hb2)
          · exact Or.inl (hb2 ▸ hb)
        · rcases h2' with hb2 | ⟨hb2, he2⟩
          · exact Or.inl (hb ▸ hb2)
          · exact Or.inr ⟨hb.trans hb2, Nat.le_trans he2 he⟩

/-! ## Registry lemmas -/

theorem checkAndAddDetector_ok {reg : Registry} {d : DetectorV} {reg' : Registry}
    (h : checkAndAddDetector reg d = .ok reg') :
    ¬ d.name ∈ reg.map Prod.fst ∧ reg' = reg ++ [(d.name, d)] := by
  by_cases hm : d.name ∈ reg.map Prod.fst
  · rw [checkAndAddDetector, if_pos (by simpa using hm)] at h
    exact absurd h (by simp)
  · rw [checkAndAddDetector, if_neg (by simpa using hm)] at h
    exact ⟨hm, (Except.ok.inj h).symm⟩

theorem addDetector_ok_nodup {cat : List (String × DetectorV)} {reg reg' : Registry}
    {arg : DetectorArg} (h : addDetector cat reg arg = .ok reg')
    (hn : (reg.map Prod.fst).Nodup) : (reg'.map Prod.fst).Nodup := by
  have hstep : ∀ d : DetectorV, checkAndAddDetector reg d = .ok reg' →
      (reg'.map Prod.fst).Nodup := by
    intro d hd
    obtain ⟨hm, rfl⟩ := checkAndAddDetector_ok hd
    simp [List.nodup_append, hn, hm]
  cases arg with
  | inst d => exact hstep d h
  | typ isSub mk =>
    cases isSub with
    | false => exact absurd h (by simp [addDetector])
    | true => exact hstep mk h
  | nameArg s =>
    rw [addDetector] at h
    cases hcat : cat.lookup s with
    | none => rw [hcat] at h; exact absurd h (by simp)
    | some d => rw [hcat] at h; exact hstep d h
  | otherVal =>
    rw [addDetector] at h
    exact (Except.ok.inj h) ▸ hn

theorem removeDetector_ok_nodup {reg reg' : Registry} {name : String}
    (h : removeDetector reg name = .ok reg')
    (hn : (reg.map Prod.fst).Nodup) : (reg'.map Prod.fst).Nodup := by
  by_cases hm : (reg.map Prod.fst).contains name
  · rw [removeDetector, if_pos hm] at h
    have := Except.ok.inj h
    subst this
    exact hn.sublist ((List.eraseP_sublist reg).map Prod.fst)
  · rw [removeDetector, if_neg hm] at h
    exact absurd h (by simp)

theorem eraseP_name_not_mem {reg : Registry} {name : String}
    (hn : (reg.map Prod.fst).Nodup) :
    ¬ name ∈ (reg.eraseP (fun kv => kv.1 == name)).map Prod.fst := by
  induction reg with
  | nil => simp
  | cons kv rest ih =>
    simp only [List.map_cons, List.nodup_cons] at hn
    by_cases hkv : kv.1 = name
    · have hb : (kv.1 == name) = true := by simpa using hkv
      rw [List.eraseP_cons, hb, cond_true]
      exact fun hmem => hn.1 (hkv ▸ hmem)
    · have hb : (kv.1 == name) = false := by simpa using hkv
      rw [List.eraseP_cons, hb, cond_false]
      intro hmem
      rw [List.map_cons, List.mem_cons] at hmem
      rcases hmem with h | h
      · exact hkv h.symm
      · exact ih hn.2 h

/-- C8: unique-name invariant of the detector registry: every state
reachable by construction, `add_detector` and `remove_detector` has
pairwise distinct detector names; adding a detector whose name is present
raises `KeyError` (the spec's `DuplicateName`) without producing a new
state; and after removing that name, re-adding it succeeds. -/
theorem registry_unique_names (cat : List (String × DetectorV)) (st : Registry)
    (h : Reachable cat st) :
    (st.map Prod.fst).Nodup
    ∧ (∀ d : DetectorV, d.name ∈ st.map Prod.fst →
        addDetector cat st (.inst d) = .error .keyError)
    ∧ (∀ d : DetectorV, d.name ∈ st.map Prod.fst →
        ∃ st', removeDetector st d.name = .ok st'
          ∧ ∃ st'', addDetector cat st' (.inst d) = .ok st'') := by
  have hnodup : (st.map Prod.fst).Nodup := by
    induction h with
    | init => simp
    | addStep _ hok ih => exact addDetector_ok_nodup hok ih
    | removeStep _ hok ih => exact removeDetector_ok_nodup hok ih
  refine ⟨hnodup, ?_, ?_⟩
  · intro d hd
    rw [addDetector, checkAndAddDetector, if_pos (by simpa using hd)]
  · intro d hd
    refine ⟨st.eraseP (fun kv => kv.1 == d.name), ?_, ?_⟩
    · rw [removeDetector, if_pos (by simpa using hd)]
    · refine ⟨st.eraseP (fun kv => kv.1 == d.name) ++ [(d.name, d)], ?_⟩
      rw [addDetector, checkAndAddDetector,
        if_neg (by simpa using eraseP_name_not_mem hnodup)]

/-- Witness for C8 at a concrete reachable state holding one detector
named "email". -/
theorem registry_unique_names_witness :
    addDetector [] [(("email" : String), DetectorV.mk "email")] (.inst (DetectorV.mk "email"))
      = .error .keyError := by
  have hreach : Reachable [] [(("email" : String), DetectorV.mk "email")] :=
    @Reachable.addStep [] [] [(("email" : String), DetectorV.mk "email")]
      (.inst (DetectorV.mk "email")) Reachable.init (by rfl)
  exact (registry_unique_names [] _ hreach).2.1 (DetectorV.mk "email") (by simp)

/-- C9 (the code as it stands): `add_detector` with a value that matches
none of the `isinstance` branches (neither a class, nor a `Detector`
instance, nor a string) silently returns with the registry unchanged,
instead of raising the `TypeError` the spec's `TypeConstraintViolation`
demands. -/
theorem addDetector_other_silently_ok (cat : List (String × DetectorV)) (reg : Registry) :
    addDetector cat reg .otherVal = .ok reg := by
  rfl

/-- C10: removing a detector name that is not registered raises
`KeyError` (Python `dict.pop` with no default) rather than silently
returning. -/
theorem removeDetector_absent_raises (reg : Registry) (name : String)
    (h : ¬ name ∈ reg.map Prod.fst) :
    removeDetector reg name = .error .keyError := by
  rw [removeDetector, if_neg (by simpa using h)]

/-- Witness for C10: removing "email" from an empty registry raises. -/
theorem removeDetector_absent_raises_witness :
    removeDetector [] "email" = .error .keyError :=
  removeDetector_absent_raises [] "email" (by simp)

/-- C7: `clean_documents` mirrors the input container's shape: a list of
`n` documents yields a list of `n` cleaned documents whose document ids
are the stringified positional indices, a name-keyed dict yields a dict
with the same keys in the same order, and any other shape raises
`TypeError` (the spec's `InvalidDocumentCollection`). -/
theorem cleanDocuments_shape (s : ScrubberM) (ld : List String)
    (dd : List (String × String)) :
    (∃ out, cleanDocuments s (.listD ld) = .ok (.listR out)
      ∧ out.length = ld.length
      ∧ out = ld.enum.map (fun it =>
          replaceText it.2
            (postProcessFilthList s
              ((ld.enum.map (fun jt => iterFilth s jt.2 (some (Nat.repr jt.1)))).flatten))
            (some (Nat.repr it.1))))
    ∧ (∃ out, cleanDocuments s (.dictD dd) = .ok (.dictR out)
      ∧ out.map Prod.fst = dd.map Prod.fst)
    ∧ cleanDocuments s .otherD = .error .typeError := by
  refine ⟨⟨_, rfl, by simp, rfl⟩, ⟨_, rfl, ?_⟩, rfl⟩
  simp [List.map_map, Function.comp]

/-! ## Sorting and merging lemmas -/

theorem strLt_irrefl (a : String) (h : strLt a a) : False :=
  strLtL_asymm h h

theorem docStr_eq_of_doc_eq {a b : Filth} (h : a.documentName = b.documentName) :
    docStr a = docStr b := by
  unfold docStr; rw [h]

theorem sortFilths_sorted (l : List Filth) : (sortFilths l).Sorted pyKeyLe := by
  haveI := pyKeyLe_isTotal
  haveI := pyKeyLe_isTrans
  exact List.sorted_insertionSort pyKeyLe l

theorem sortFilths_perm (l : List Filth) : (sortFilths l).Perm l :=
  List.perm_insertionSort pyKeyLe l

theorem sortFilths_eq_of_sorted {l : List Filth} (h : l.Sorted pyKeyLe) :
    sortFilths l = l :=
  h.insertionSort_eq

theorem docNamesOf_const {l : List Filth} {d : Option String}
    (h : ∀ f ∈ l, f.documentName = d) (hne : l ≠ []) : docNamesOf l = [d] := by
  cases l with
  | nil => exact absurd rfl hne
  | cons a t =>
    cases d with
    | none =>
      have hany : (a :: t).any (fun f => f.documentName.isNone) = true := by
        refine List.any_eq_true.mpr ⟨a, List.mem_cons_self a t, ?_⟩
        rw [h a (List.mem_cons_self a t)]; rfl
      have hfm : (a :: t).filterMap (fun f => f.documentName) = [] := by
        rw [List.filterMap_eq_nil_iff]
        intro f hf
        exact h f hf
      rw [docNamesOf, hfm]
      simp [hany, List.insertionSort]
    | some s =>
      have hany : (a :: t).any (fun f => f.documentName.isNone) = false := by
        rw [List.any_eq_false]
        intro f hf
        rw [h f hf]
        simp
      have hfm : ∀ (m : List Filth), (∀ f ∈ m, f.documentName = some s) →
          m.filterMap (fun f => f.documentName) = m.map (fun _ => s) := by
        intro m
        induction m with
        | nil => intro _; rfl
        | cons x xt ih =>
          intro hm
          rw [List.filterMap_cons, hm x (List.mem_cons_self x xt), List.map_cons,
            ih (fun f hf => hm f (List.mem_cons.mpr (Or.inr hf)))]
      have hded : ∀ (m : List Filth), (m.map (fun _ => s)).dedup = [] ∨
          (m.map (fun _ => s)).dedup = [s] := by
        intro m
        induction m with
        | nil => exact Or.inl rfl
        | cons x xt ih =>
          rcases ih with ih | ih
          · have hnil : (xt.map (fun _ => s)) = [] := (List.dedup_eq_nil _).mp ih
            right
            rw [List.map_cons, hnil]
            rfl
          · right
            rw [List.map_cons, List.dedup_cons_of_mem]
            · exact ih
            · have : s ∈ (xt.map (fun _ => s)).dedup := by rw [ih]; exact List.mem_singleton.mpr rfl
              exact (List.mem_dedup.mp this)
      rw [docNamesOf, hfm (a :: t) h]
      rcases hded (a :: t) with hd | hd
      · exact absurd hd (by simp)
      · rw [hd]
        simp [hany, List.insertionSort, List.orderedInsert]

theorem mergeSameDoc {l : List Filth} {d : Option String}
    (h : ∀ f ∈ l, f.documentName = d) (hne : l ≠ []) :
    mergeFilths l = mergeDoc (sortFilths l) := by
  have hfil : l.filter (fun f => f.documentName == d) = l := by
    rw [List.filter_eq_self]
    intro f hf
    simpa using h f hf
  rw [mergeFilths, if_neg (by simpa using hne), docNamesOf_const h hne,
    mergePerDocs, hfil, mergePerDocs, List.append_nil]

theorem mergeRun_sep : ∀ {rest : List Filth} {current : Filth},
    List.Chain' (fun a b => a.end_ < b.beg) (current :: rest) →
    mergeRun current rest = current :: rest
  | [], _, _ => rfl
  | n :: t, current, h => by
    rw [List.chain'_cons] at h
    rw [mergeRun, if_pos h.1, mergeRun_sep h.2]

theorem mergeDoc_sep {l : List Filth} (h : List.Chain' (fun a b => a.end_ < b.beg) l) :
    mergeDoc l = l := by
  cases l with
  | nil => rfl
  | cons f t => exact mergeRun_sep h

theorem chain_beg_of_sep : ∀ {l : List Filth}, (∀ f ∈ l, f.beg ≤ f.end_) →
    List.Chain' (fun a b => a.end_ < b.beg) l →
    List.Chain' (fun a b => a.beg < b.beg) l
  | [], _, _ => List.chain'_nil
  | [_], _, _ => List.chain'_singleton _
  | a :: b :: t, hwf, hch => by
    rw [List.chain'_cons] at hch ⊢
    refine ⟨?_, chain_beg_of_sep (fun f hf => hwf f (List.mem_cons_of_mem a hf)) hch.2⟩
    exact Nat.lt_of_le_of_lt (hwf a (List.mem_cons_self a _)) hch.1

theorem sorted_of_sep {l : List Filth} {d : Option String}
    (hdoc : ∀ f ∈ l, f.documentName = d) (hwf : ∀ f ∈ l, f.beg ≤ f.end_)
    (hch : List.Chain' (fun a b => a.end_ < b.beg) l) : l.Sorted pyKeyLe := by
  haveI : IsTrans Filth (fun a b => a.beg < b.beg) := ⟨fun _ _ _ => Nat.lt_trans⟩
  have hpw : l.Pairwise (fun a b => a.beg < b.beg) :=
    List.chain'_iff_pairwise.mp (chain_beg_of_sep hwf hch)
  refine List.Pairwise.imp_of_mem ?_ hpw
  intro a b ha hb hr
  exact Or.inr ⟨docStr_eq_of_doc_eq ((hdoc a ha).trans (hdoc b hb).symm), Or.inl hr⟩

theorem mergeFilths_eq_self {l : List Filth} {d : Option String}
    (hdoc : ∀ f ∈ l, f.documentName = d) (hwf : ∀ f ∈ l, f.beg ≤ f.end_)
    (hch : List.Chain' (fun a b => a.end_ < b.beg) l) : mergeFilths l = l := by
  cases l with
  | nil => rfl
  | cons a t =>
    rw [mergeSameDoc hdoc (by simp), sortFilths_eq_of_sorted (sorted_of_sep hdoc hwf hch),
      mergeDoc_sep hch]

/-- C6 (amended): the merge pass is the identity on strictly separated
same-document spans: the output is the input itself for a sorted strictly
separated list (in particular output length equals input length), an
unsorted pairwise strictly separated list keeps its length (the spans are
only reordered by `begin`), and merging the empty list yields the empty
list.  (Exactly-touching spans — `a.end = b.begin` — are merged by the
code, so plain set-disjointness is not enough; see the counterexample.) -/
theorem merge_identity_on_separated :
    (∀ (l : List Filth) (d : Option String),
      (∀ f ∈ l, f.documentName = d) →
      (∀ f ∈ l, f.beg ≤ f.end_) →
      l.Pairwise (fun a b => a.end_ < b.beg ∨ b.end_ < a.beg) →
      (mergeFilths l).length = l.length)
    ∧ (∀ (l : List Filth) (d : Option String),
      (∀ f ∈ l, f.documentName = d) →
      (∀ f ∈ l, f.beg ≤ f.end_) →
      l.Chain' (fun a b => a.end_ < b.beg) →
      mergeFilths l = l)
    ∧ mergeFilths [] = [] := by
  refine ⟨?_, fun l d hdoc hwf hch => mergeFilths_eq_self hdoc hwf hch, rfl⟩
  intro l d hdoc hwf hsep
  cases hl : l with
  | nil => rfl
  | cons a t =>
    subst hl
    have hperm := sortFilths_perm (a :: t)
    have hdoc' : ∀ f ∈ sortFilths (a :: t), f.documentName = d :=
      fun f hf => hdoc f (hperm.mem_iff.mp hf)
    have hwf' : ∀ f ∈ sortFilths (a :: t), f.beg ≤ f.end_ :=
      fun f hf => hwf f (hperm.mem_iff.mp hf)
    have hsep' : (sortFilths (a :: t)).Pairwise
        (fun a b => a.end_ < b.beg ∨ b.end_ < a.beg) := by
      refine (hperm.pairwise_iff ?_).mpr hsep
      intro x y hxy
      exact hxy.symm
    have hchain : (sortFilths (a :: t)).Chain' (fun a b => a.end_ < b.beg) := by
      refine List.Pairwise.chain' ?_
      have hand := (sortFilths_sorted (a :: t)).and hsep'
      refine List.Pairwise.imp_of_mem ?_ hand
      intro x y hx hy hr
      rcases hr.2 with hgood | hbad
      · exact hgood
      · exfalso
        have hds : docStr x = docStr y :=
          docStr_eq_of_doc_eq ((hdoc' x hx).trans (hdoc' y hy).symm)
        rcases hr.1 with hlt | ⟨_, hbeg⟩
        · exact strLt_irrefl _ (hds ▸ hlt)
        · have hxb : x.beg ≤ y.beg := by
            rcases hbeg with hlt | ⟨heq, _⟩
            · exact Nat.le_of_lt hlt
            · exact Nat.le_of_eq heq
          have : y.beg ≤ y.end_ := hwf' y hy
          omega
    rw [mergeSameDoc hdoc (by simp), mergeDoc_sep hchain]
    exact hperm.length_eq

/-- Witness for C6 on two concrete strictly separated spans of the
unnamed document. -/
theorem merge_identity_on_separated_witness :
    mergeFilths [⟨0, 2, none, none, "A"⟩, ⟨4, 6, none, none, "B"⟩]
      = [⟨0, 2, none, none, "A"⟩, ⟨4, 6, none, none, "B"⟩] :=
  merge_identity_on_separated.2.1 _ none (by decide) (by decide)
    (List.chain'_cons.mpr ⟨by decide, List.chain'_singleton _⟩)

/-- Counterexample for C6 as stated: `[0,5)` and `[5,9)` are disjoint as
half-open ranges (non-overlapping: the first ends where the second
begins), yet the merge pass coalesces them into one span, so the output
length is 1, not 2, and the merge is not the identity on them. -/
theorem merge_touching_cx :
    (⟨0, 5, none, none, ""⟩ : Filth).end_ ≤ (⟨5, 9, none, none, ""⟩ : Filth).beg
    ∧ (mergeFilths [⟨0, 5, none, none, ""⟩, ⟨5, 9, none, none, ""⟩]).length = 1 := by
  decide

/-- C1 (amended): for two spans of the same document that overlap or
exactly touch in the interval sense (`b.begin <= a.end` and
`a.begin <= b.end`), the merge pass on the two-element list yields a
single span from `min(a.begin, b.begin)` to `max(a.end, b.end)`. -/
theorem merge_overlapping_pair (a b : Filth) (hdoc : a.documentName = b.documentName)
    (h1 : b.beg ≤ a.end_) (h2 : a.beg ≤ b.end_) :
    ∃ c, mergeFilths [a, b] = [c]
      ∧ c.beg = min a.beg b.beg ∧ c.end_ = max a.end_ b.end_ := by
  have hdocs : ∀ f ∈ [a, b], f.documentName = a.documentName := by
    intro f hf
    rcases List.mem_cons.mp hf with rfl | hf
    · rfl
    · rw [List.mem_singleton.mp hf, hdoc]
  have hsort : sortFilths [a, b] = if pyKeyLe a b then [a, b] else [b, a] := by
    by_cases hk : pyKeyLe a b <;>
      simp [sortFilths, List.insertionSort, List.orderedInsert, hk]
  rw [mergeSameDoc hdocs (by simp), hsort]
  by_cases hk : pyKeyLe a b
  · rw [if_pos hk]
    refine ⟨a.merge b, ?_, rfl, rfl⟩
    rw [mergeDoc, mergeRun, if_neg (Nat.not_lt.mpr h1), mergeRun]
  · rw [if_neg hk]
    refine ⟨b.merge a, ?_, Nat.min_comm b.beg a.beg, Nat.max_comm b.end_ a.end_⟩
    rw [mergeDoc, mergeRun, if_neg (Nat.not_lt.mpr h2), mergeRun]

/-- Witness for C1 on two concrete overlapping spans. -/
theorem merge_overlapping_pair_witness :
    ∃ c, mergeFilths [⟨0, 10, none, some "X", ""⟩, ⟨5, 15, none, some "Y", ""⟩] = [c]
      ∧ c.beg = min 0 5 ∧ c.end_ = max 10 15 :=
  merge_overlapping_pair ⟨0, 10, none, some "X", ""⟩ ⟨5, 15, none, some "Y", ""⟩
    rfl (by decide) (by decide)

/-- Counterexample for C1 as stated: with `a = [5,10)` and `b = [0,2)` in
the same document we have `a.end >= b.begin` (10 >= 0), yet the merge of
the two-element list yields two spans, not one: the condition compares
the *sorted* neighbours, so only genuine interval overlap (both
`a.end >= b.begin` and `b.end >= a.begin`) merges. -/
theorem merge_overlapping_pair_cx :
    (⟨0, 2, none, some "Y", ""⟩ : Filth).beg ≤ (⟨5, 10, none, some "X", ""⟩ : Filth).end_
    ∧ (mergeFilths [⟨5, 10, none, some "X", ""⟩, ⟨0, 2, none, some "Y", ""⟩]).length = 2 := by
  decide

/-- C3 (amended): `_sort_filths` sorts every list by the key
`(str(document_id), begin, -end)`: the output is ordered under that key
and is a permutation of the input, and two same-document spans starting
at the same `begin` place the longer one first.  Because the unset
document id is stringified, `None` sorts as the literal string "None"
among the named ids (not before all of them — see the counterexample);
only the merge step's separate document grouping processes the `None`
group first. -/
theorem sort_key_order :
    (∀ l : List Filth, (sortFilths l).Sorted pyKeyLe ∧ (sortFilths l).Perm l)
    ∧ (∀ a b : Filth, a.documentName = b.documentName → a.beg = b.beg →
        b.end_ < a.end_ → sortFilths [b, a] = [a, b])
    ∧ (∀ l : List Filth, (∃ f ∈ l, f.documentName = none) →
        ∃ t, docNamesOf l = none :: t ∧ ¬ none ∈ t) := by
  refine ⟨fun l => ⟨sortFilths_sorted l, sortFilths_perm l⟩, ?_, ?_⟩
  · intro a b hdoc hbeg hlen
    have hk : ¬ pyKeyLe b a := by
      intro hk
      rcases hk with hlt | ⟨_, hrest⟩
      · exact strLt_irrefl _ ((docStr_eq_of_doc_eq hdoc) ▸ hlt)
      · rcases hrest with hblt | ⟨_, hle⟩
        · omega
        · omega
    simp [sortFilths, List.insertionSort, List.orderedInsert, hk]
  · intro l hex
    have hany : l.any (fun f => f.documentName.isNone) = true := by
      obtain ⟨f, hf, hfn⟩ := hex
      refine List.any_eq_true.mpr ⟨f, hf, ?_⟩
      rw [hfn]; rfl
    refine ⟨(((l.filterMap (fun f => f.documentName)).dedup).insertionSort strLe).map some,
      ?_, ?_⟩
    · rw [docNamesOf]
      simp only [hany, if_true]
    · simp

/-- Witness for C3: two co-starting spans of the unnamed document, the
longer one `[3,9)` is placed before the shorter `[3,5)`. -/
theorem sort_key_order_witness :
    sortFilths [⟨3, 5, none, none, ""⟩, ⟨3, 9, none, none, ""⟩]
      = [⟨3, 9, none, none, ""⟩, ⟨3, 5, none, none, ""⟩] :=
  sort_key_order.2.1 ⟨3, 9, none, none, ""⟩ ⟨3, 5, none, none, ""⟩ rfl rfl (by decide)

/-- Counterexample for C3 as stated: a span of document "A" sorts before
a span with unset document id, because `str(None)` is "None" and
"A" < "None" lexicographically, so the unset id does not sort before
every named id in `_sort_filths`. -/
theorem sort_none_after_named_cx :
    (⟨0, 1, none, none, ""⟩ : Filth).documentName = none
    ∧ (⟨0, 1, some "A", none, ""⟩ : Filth).documentName = some "A"
    ∧ sortFilths [⟨0, 1, none, none, ""⟩, ⟨0, 1, some "A", none, ""⟩]
        = [⟨0, 1, some "A", none, ""⟩, ⟨0, 1, none, none, ""⟩] := by
  decide

/-! ## Reconstruction lemmas -/

theorem strJoin_cons (a : String) (l : List String) :
    String.join (a :: l) = a ++ String.join l := by
  rw [String.join_eq, String.join_eq]
  rfl

theorem join_replaceChunks (text : String) :
    ∀ (fl : List Filth) (cursor : Nat),
      String.join (replaceChunks text cursor fl) = rebuildSpec text cursor fl
  | [], cursor => by
    rw [replaceChunks, rebuildSpec, strJoin_cons]
    exact String.append_empty _
  | f :: rest, cursor => by
    rw [replaceChunks, rebuildSpec, strJoin_cons, strJoin_cons,
      join_replaceChunks text rest f.end_, ← String.append_assoc]

/-- C2 (amended): on a same-document span list whose `begin` offsets are
strictly ascending and which is non-overlapping, `_replace_text` (with no
document filter) returns exactly the spec's reconstruction: for each span
in order the passthrough `text[cursor:span.begin]`, then the span's fixed
replacement when set and the computed replacement otherwise, with
`cursor` advanced to `span.end`, and finally `text[cursor:]`.  (Two
spans sharing a `begin` can be reordered by the sort's `-end` tie-break,
so strictly ascending begins are required — see the counterexample.) -/
theorem replaceText_rebuilds (text : String) (fl : List Filth) (dn : Option String)
    (hdoc : ∀ f ∈ fl, f.documentName = dn)
    (hbeg : fl.Chain' (fun a b => a.beg < b.beg))
    (_hsep : fl.Chain' (fun a b => a.end_ ≤ b.beg)) :
    replaceText text fl none = rebuildSpec text 0 fl := by
  haveI : IsTrans Filth (fun a b => a.beg < b.beg) := ⟨fun _ _ _ => Nat.lt_trans⟩
  have hsorted : fl.Sorted pyKeyLe := by
    refine List.Pairwise.imp_of_mem ?_ (List.chain'_iff_pairwise.mp hbeg)
    intro a b ha hb hr
    exact Or.inr ⟨docStr_eq_of_doc_eq ((hdoc a ha).trans (hdoc b hb).symm), Or.inl hr⟩
  rw [replaceText]
  rw [sortFilths_eq_of_sorted hsorted]
  exact join_replaceChunks text fl 0

/-- Witness for C2 on two concrete separated spans. -/
theorem replaceText_rebuilds_witness :
    replaceText "Contact John or Jane" [⟨8, 12, none, some "N1", ""⟩,
      ⟨16, 20, none, none, "N2"⟩] none
      = rebuildSpec "Contact John or Jane" 0 [⟨8, 12, none, some "N1", ""⟩,
          ⟨16, 20, none, none, "N2"⟩] :=
  replaceText_rebuilds _ _ none (by decide)
    (List.chain'_cons.mpr ⟨by decide, List.chain'_singleton _⟩)
    (List.chain'_cons.mpr ⟨by decide, List.chain'_singleton _⟩)

/-- Counterexample for C2 as stated: the spans `[5,5)` and `[5,9)` are
sorted ascending by `begin` and non-overlapping (`5 <= 5`), but the
sort's `-end` tie-break swaps them, so `_replace_text` emits the
replacements in the other order and re-copies `text[5:9]`, differing from
the claimed walk. -/
theorem replaceText_rebuilds_cx :
    (⟨5, 5, none, some "X", ""⟩ : Filth).beg ≤ (⟨5, 9, none, some "Y", ""⟩ : Filth).beg
    ∧ (⟨5, 5, none, some "X", ""⟩ : Filth).end_ ≤ (⟨5, 9, none, some "Y", ""⟩ : Filth).beg
    ∧ replaceText "abcdefghij" [⟨5, 5, none, some "X", ""⟩, ⟨5, 9, none, some "Y", ""⟩] none
        ≠ rebuildSpec "abcdefghij" 0 [⟨5, 5, none, some "X", ""⟩, ⟨5, 9, none, some "Y", ""⟩] := by
  decide

/-! ## Multi-document isolation lemmas -/

theorem postProcess_nil {s : ScrubberM} (hpp : s.postProcessors = [])
    (l : List Filth) : postProcessFilthList s l = l := by
  rw [postProcessFilthList, hpp]
  rfl

theorem collectRaw_tagged {s : ScrubberM} (hwt : wellTagged s) (t : String)
    (dn : Option String) : ∀ f ∈ collectRaw s.detectors t dn, f.documentName = dn := by
  intro f hf
  rw [collectRaw, List.mem_flatten] at hf
  obtain ⟨l, hl, hfl⟩ := hf
  obtain ⟨nd, hnd, rfl⟩ := List.mem_map.mp hl
  exact hwt nd hnd t dn f hfl

theorem mergeRun_doc {d : Option String} :
    ∀ {rest : List Filth} {cur : Filth}, cur.documentName = d →
      (∀ f ∈ rest, f.documentName = d) →
      ∀ g ∈ mergeRun cur rest, g.documentName = d
  | [], cur, hc, _, g, hg => by
    rw [mergeRun, List.mem_singleton] at hg
    exact hg ▸ hc
  | n :: t, cur, hc, hr, g, hg => by
    rw [mergeRun] at hg
    by_cases hlt : cur.end_ < n.beg
    · rw [if_pos hlt] at hg
      rcases List.mem_cons.mp hg with rfl | hg
      · exact hc
      · exact mergeRun_doc (hr n (List.mem_cons_self n t))
          (fun f hf => hr f (List.mem_cons_of_mem n hf)) g hg
    · rw [if_neg hlt] at hg
      exact mergeRun_doc (show (cur.merge n).documentName = d from hc)
        (fun f hf => hr f (List.mem_cons_of_mem n hf)) g hg

theorem mergeFilths_doc_const {l : List Filth} {d : Option String}
    (h : ∀ f ∈ l, f.documentName = d) :
    ∀ g ∈ mergeFilths l, g.documentName = d := by
  cases l with
  | nil => intro g hg; exact absurd hg (by simp [mergeFilths])
  | cons a t =>
    rw [mergeSameDoc h (by simp)]
    have hperm := sortFilths_perm (a :: t)
    have h' : ∀ f ∈ sortFilths (a :: t), f.documentName = d :=
      fun f hf => h f (hperm.mem_iff.mp hf)
    cases hs : sortFilths (a :: t) with
    | nil => intro g hg; exact absurd hg (by simp [mergeDoc])
    | cons x xt =>
      rw [mergeDoc]
      exact mergeRun_doc (h' x (hs ▸ List.mem_cons_self x xt))
        (fun f hf => h' f (hs ▸ List.mem_cons_of_mem x hf))

theorem iterFilth_nopp {s : ScrubberM} (hpp : s.postProcessors = [])
    (t : String) (dn : Option String) :
    iterFilth s t dn = mergeFilths (collectRaw s.detectors t dn) := by
  rw [iterFilth, postProcess_nil hpp]

theorem iterFilth_tagged {s : ScrubberM} (hpp : s.postProcessors = [])
    (hwt : wellTagged s) (t : String) (dn : Option String) :
    ∀ f ∈ iterFilth s t dn, f.documentName = dn := by
  rw [iterFilth_nopp hpp]
  exact mergeFilths_doc_const (collectRaw_tagged hwt t dn)

theorem dict_collate_filter {s : ScrubberM} (hpp : s.postProcessors = [])
    (hwt : wellTagged s) (b : String) :
    ∀ docs : List (String × String),
      ((docs.map (fun nt => iterFilth s nt.2 (some nt.1))).flatten).filter
          (fun f => f.documentName == some b)
        = ((docs.filter (fun nt => nt.1 == b)).map
            (fun nt => iterFilth s nt.2 (some nt.1))).flatten
  | [] => rfl
  | (n, t) :: rest => by
    rw [List.map_cons, List.flatten_cons, List.filter_append,
      dict_collate_filter hpp hwt b rest]
    by_cases hnb : n = b
    · have hself : (iterFilth s t (some n)).filter (fun f => f.documentName == some b)
          = iterFilth s t (some n) := by
        rw [List.filter_eq_self]
        intro f hf
        rw [iterFilth_tagged hpp hwt t (some n) f hf]
        simp [hnb]
      rw [hself, List.filter_cons]
      simp only [hnb, beq_self_eq_true, if_true, List.map_cons, List.flatten_cons]
    · have hnil : (iterFilth s t (some n)).filter (fun f => f.documentName == some b)
          = [] := by
        rw [List.filter_eq_nil_iff]
        intro f hf
        rw [iterFilth_tagged hpp hwt t (some n) f hf]
        simp [hnb]
      rw [hnil, List.filter_cons]
      have hb : ((n, t).1 == b) = false := by simpa using hnb
      simp [hb]

theorem filter_fst_map_pair {b : String} (g : String × String → String) :
    ∀ docs : List (String × String),
      ((docs.map (fun nt => (nt.1, g nt))).filter (fun x => x.1 == b))
        = (docs.filter (fun nt => nt.1 == b)).map (fun nt => (nt.1, g nt))
  | [] => rfl
  | (n, t) :: rest => by
    rw [List.map_cons, List.filter_cons, List.filter_cons]
    by_cases hnb : (n == b)
    · simp only [hnb, if_true, List.map_cons, filter_fst_map_pair g rest]
    · simp only [Bool.not_eq_true] at hnb
      simp [hnb, filter_fst_map_pair g rest]

/-- C5: multi-document isolation.  First, reconstruction for a document
id `b` depends only on the spans whose `document_name` is `b`: two filth
lists with the same doc-`b` spans reconstruct `b` identically, so adding,
removing or changing spans of other documents never changes document
`b`'s output.  Second, end to end: for a transform-free scrubber with
well-tagged detectors, two dict batches containing the same entry
`(b, tb)` produce the same cleaned text for key `b`, regardless of the
other documents in the batch. -/
theorem document_isolation :
    (∀ (text b : String) (fl fl' : List Filth),
      fl.filter (fun f => f.documentName == some b)
        = fl'.filter (fun f => f.documentName == some b) →
      replaceText text fl (some b) = replaceText text fl' (some b))
    ∧ (∀ (s : ScrubberM) (docs docs' : List (String × String)) (b tb : String),
      s.postProcessors = [] → wellTagged s →
      docs.filter (fun nt => nt.1 == b) = [(b, tb)] →
      docs'.filter (fun nt => nt.1 == b) = [(b, tb)] →
      ∃ out out' r,
        cleanDocuments s (.dictD docs) = .ok (.dictR out)
        ∧ cleanDocuments s (.dictD docs') = .ok (.dictR out')
        ∧ out.filter (fun x => x.1 == b) = [(b, r)]
        ∧ out'.filter (fun x => x.1 == b) = [(b, r)]) := by
  have part1 : ∀ (text b : String) (fl fl' : List Filth),
      fl.filter (fun f => f.documentName == some b)
        = fl'.filter (fun f => f.documentName == some b) →
      replaceText text fl (some b) = replaceText text fl' (some b) := by
    intro text b fl fl' h
    simp only [replaceText]
    rw [h]
  refine ⟨part1, ?_⟩
  intro s docs docs' b tb hpp hwt hb hb'
  refine ⟨_, _, replaceText tb
    (postProcessFilthList s ((docs.map (fun nt => iterFilth s nt.2 (some nt.1))).flatten))
    (some b), rfl, rfl, ?_, ?_⟩
  · rw [filter_fst_map_pair _ docs, hb]
    rfl
  · rw [filter_fst_map_pair _ docs', hb']
    have heq : replaceText tb
        (postProcessFilthList s
          ((docs'.map (fun nt => iterFilth s nt.2 (some nt.1))).flatten)) (some b)
      = replaceText tb
        (postProcessFilthList s
          ((docs.map (fun nt => iterFilth s nt.2 (some nt.1))).flatten)) (some b) := by
      refine part1 tb b _ _ ?_
      rw [postProcess_nil hpp, postProcess_nil hpp,
        dict_collate_filter hpp hwt b docs', dict_collate_filter hpp hwt b docs, hb, hb']
    exact congrArg (fun r => [(b, r)]) heq

/-- Witness for C5 with one well-tagged detector, comparing the batches
`{"a": "zz", "b": "hi"}` and `{"b": "hi"}`. -/
theorem document_isolation_witness :
    ∃ out out' r,
      cleanDocuments ⟨[("em", fun _ dn => [⟨0, 1, dn, some "R", ""⟩])], []⟩
          (.dictD [("a", "zz"), ("b", "hi")]) = .ok (.dictR out)
      ∧ cleanDocuments ⟨[("em", fun _ dn => [⟨0, 1, dn, some "R", ""⟩])], []⟩
          (.dictD [("b", "hi")]) = .ok (.dictR out')
      ∧ out.filter (fun x => x.1 == "b") = [("b", r)]
      ∧ out'.filter (fun x => x.1 == "b") = [("b", r)] := by
  refine document_isolation.2 _ _ _ "b" "hi" rfl ?_ (by decide) (by decide)
  intro p hp t dn f hf
  rcases List.mem_singleton.mp hp with rfl
  rcases List.mem_singleton.mp hf with rfl
  rfl

/-! ## Order-independence lemmas -/

theorem spanPosLe_isAntisymm : IsAntisymm (Nat × Nat) spanPosLe where
  antisymm x y h1 h2 := by
    obtain ⟨x1, x2⟩ := x
    obtain ⟨y1, y2⟩ := y
    simp only [spanPosLe] at h1 h2
    have hx : x1 = y1 ∧ x2 = y2 := by omega
    rw [hx.1, hx.2]

theorem perm_any {α : Type} (p : α → Bool) {l l' : List α} (h : l.Perm l') :
    l.any p = l'.any p := by
  cases hb : l'.any p
  · rw [List.any_eq_false] at hb ⊢
    intro x hx
    exact hb x (h.mem_iff.mp hx)
  · rw [List.any_eq_true] at hb ⊢
    obtain ⟨x, hx, hpx⟩ := hb
    exact ⟨x, h.mem_iff.mpr hx, hpx⟩

theorem insertionSort_strLe_perm_eq {l l' : List String} (h : l.Perm l') :
    l.insertionSort strLe = l'.insertionSort strLe := by
  haveI := strLe_isTotal
  haveI := strLe_isTrans
  haveI := strLe_isAntisymm
  refine List.eq_of_perm_of_sorted ?_ (List.sorted_insertionSort strLe l)
    (List.sorted_insertionSort strLe l')
  exact ((List.perm_insertionSort strLe l).trans h).trans
    (List.perm_insertionSort strLe l').symm

theorem docNamesOf_perm {l l' : List Filth} (h : l.Perm l') :
    docNamesOf l = docNamesOf l' := by
  rw [docNamesOf, docNamesOf, perm_any _ h,
    insertionSort_strLe_perm_eq ((h.filterMap _).dedup)]

theorem mergeRun_map_spanPos :
    ∀ {xs ys : List Filth} {c c' : Filth}, spanPos c = spanPos c' →
      xs.map spanPos = ys.map spanPos →
      (mergeRun c xs).map spanPos = (mergeRun c' ys).map spanPos
  | [], ys, c, c', hc, hm => by
    have hys : ys = [] := by
      cases ys with
      | nil => rfl
      | cons y yt => exact absurd hm.symm (by simp)
    subst hys
    simp [mergeRun, hc]
  | x :: xt, ys, c, c', hc, hm => by
    cases ys with
    | nil => exact absurd hm (by simp)
    | cons y yt =>
      rw [List.map_cons, List.map_cons] at hm
      have hxy : spanPos x = spanPos y := (List.cons.inj hm).1
      have hxt : xt.map spanPos = yt.map spanPos := (List.cons.inj hm).2
      have hcend : c.end_ = c'.end_ := congrArg Prod.snd hc
      have hcbeg : c.beg = c'.beg := congrArg Prod.fst hc
      have hxbeg : x.beg = y.beg := congrArg Prod.fst hxy
      have hxend : x.end_ = y.end_ := congrArg Prod.snd hxy
      rw [mergeRun, mergeRun]
      by_cases hlt : c.end_ < x.beg
      · rw [if_pos hlt, if_pos (by rw [← hcend, ← hxbeg]; exact hlt)]
        rw [List.map_cons, List.map_cons, hc, mergeRun_map_spanPos hxy hxt]
      · rw [if_neg hlt, if_neg (by rw [← hcend, ← hxbeg]; exact hlt)]
        refine mergeRun_map_spanPos ?_ hxt
        show spanPos (c.merge x) = spanPos (c'.merge y)
        simp [spanPos, Filth.merge, hcbeg, hcend, hxbeg, hxend]

theorem mergeDoc_map_spanPos {m m' : List Filth}
    (h : m.map spanPos = m'.map spanPos) :
    (mergeDoc m).map spanPos = (mergeDoc m').map spanPos := by
  cases m with
  | nil =>
    have hm' : m' = [] := by
      cases m' with
      | nil => rfl
      | cons y yt => exact absurd h.symm (by simp)
    subst hm'
    rfl
  | cons x xt =>
    cases m' with
    | nil => exact absurd h (by simp)
    | cons y yt =>
      rw [List.map_cons, List.map_cons] at h
      exact mergeRun_map_spanPos (List.cons.inj h).1 (List.cons.inj h).2

theorem sorted_map_spanPos {d : Option String} {m : List Filth}
    (hm : ∀ f ∈ m, f.documentName = d) :
    ((sortFilths m).map spanPos).Pairwise spanPosLe := by
  rw [List.pairwise_map]
  refine List.Pairwise.imp_of_mem ?_ (sortFilths_sorted m)
  intro a b ha hb hr
  have hda : a.documentName = d := hm a ((sortFilths_perm m).mem_iff.mp ha)
  have hdb : b.documentName = d := hm b ((sortFilths_perm m).mem_iff.mp hb)
  rcases hr with hlt | ⟨_, hrest⟩
  · exfalso
    have hde : docStr a = docStr b := docStr_eq_of_doc_eq (hda.trans hdb.symm)
    rw [hde] at hlt
    exact strLt_irrefl _ hlt
  · exact hrest

theorem sortFilths_map_spanPos_eq {d : Option String} {m m' : List Filth}
    (hm : ∀ f ∈ m, f.documentName = d) (hm' : ∀ f ∈ m', f.documentName = d)
    (h : m.Perm m') :
    (sortFilths m).map spanPos = (sortFilths m').map spanPos := by
  haveI := spanPosLe_isAntisymm
  refine List.eq_of_perm_of_sorted ?_ (sorted_map_spanPos hm) (sorted_map_spanPos hm')
  exact (((sortFilths_perm m).map spanPos).trans (h.map spanPos)).trans
    ((sortFilths_perm m').map spanPos).symm

theorem filter_doc_all (l : List Filth) (d : Option String) :
    ∀ f ∈ l.filter (fun f => f.documentName == d), f.documentName = d := by
  intro f hf
  simpa using List.of_mem_filter hf

theorem mergeDoc_doc {m : List Filth} {d : Option String}
    (h : ∀ f ∈ m, f.documentName = d) : ∀ g ∈ mergeDoc m, g.documentName = d := by
  cases m with
  | nil => intro g hg; exact absurd hg (by simp [mergeDoc])
  | cons x xt =>
    rw [mergeDoc]
    exact mergeRun_doc (h x (List.mem_cons_self x xt))
      (fun f hf => h f (List.mem_cons_of_mem x hf))

theorem map_posOf_of_doc {m : List Filth} {d : Option String}
    (h : ∀ f ∈ m, f.documentName = d) :
    m.map posOf = (m.map spanPos).map (fun p => (d, p)) := by
  rw [List.map_map]
  refine List.map_congr_left ?_
  intro f hf
  show posOf f = (d, spanPos f)
  simp [posOf, spanPos, h f hf]

theorem mergePerDocs_map_posOf {l l' : List Filth} (h : l.Perm l') :
    ∀ ds : List (Option String),
      (mergePerDocs l ds).map posOf = (mergePerDocs l' ds).map posOf
  | [] => rfl
  | d :: ds => by
    rw [mergePerDocs, mergePerDocs, List.map_append, List.map_append,
      mergePerDocs_map_posOf h ds]
    congr 1
    have hg := filter_doc_all l d
    have hg' := filter_doc_all l' d
    have hspan := sortFilths_map_spanPos_eq hg hg' (h.filter _)
    have hdocL : ∀ f ∈ sortFilths (l.filter (fun f => f.documentName == d)),
        f.documentName = d :=
      fun f hf => hg f ((sortFilths_perm _).mem_iff.mp hf)
    have hdocR : ∀ f ∈ sortFilths (l'.filter (fun f => f.documentName == d)),
        f.documentName = d :=
      fun f hf => hg' f ((sortFilths_perm _).mem_iff.mp hf)
    rw [map_posOf_of_doc (mergeDoc_doc hdocL), map_posOf_of_doc (mergeDoc_doc hdocR),
      mergeDoc_map_spanPos hspan]

theorem mergeFilths_map_posOf_perm {l l' : List Filth} (h : l.Perm l') :
    (mergeFilths l).map posOf = (mergeFilths l').map posOf := by
  cases hl : l with
  | nil =>
    subst hl
    have hl' : l' = [] := h.symm.eq_nil
    subst hl'
    rfl
  | cons a t =>
    subst hl
    have hne' : l' ≠ [] := by
      intro hh
      rw [hh] at h
      exact absurd h.eq_nil (by simp)
    rw [mergeFilths, mergeFilths, if_neg (by simp), if_neg (by simpa using hne'),
      docNamesOf_perm h]
    exact mergePerDocs_map_posOf h (docNamesOf l')

theorem collectRaw_perm {dets dets' : List (String × DetFn)} (h : dets.Perm dets')
    (text : String) (dn : Option String) :
    (collectRaw dets text dn).Perm (collectRaw dets' text dn) :=
  (h.map _).flatten

/-- C4 (amended): permuting the registration order of the same detector
set never changes which ranges of which document the merge pass reports:
the merged spans' `(document, begin, end)` triples are identical for any
two registration orders.  The replacement text attached to a merged span
can still depend on the order when two detectors produce
identically-positioned spans (the stable sort keeps their registration
order and the merge keeps the first span's metadata), so `clean`'s output
string itself is not order-independent — see the counterexample. -/
theorem merge_positions_order_independent
    (dets dets' : List (String × DetFn)) (text : String) (dn : Option String)
    (h : dets.Perm dets') :
    (mergeFilths (collectRaw dets text dn)).map posOf
      = (mergeFilths (collectRaw dets' text dn)).map posOf :=
  mergeFilths_map_posOf_perm (collectRaw_perm h text dn)

/-- Witness for C4 on the two registration orders of the detectors
`detX` and `detY`. -/
theorem merge_positions_order_independent_witness :
    (mergeFilths (collectRaw [("d1", detX), ("d2", detY)] "ab" none)).map posOf
      = (mergeFilths (collectRaw [("d2", detY), ("d1", detX)] "ab" none)).map posOf :=
  merge_positions_order_independent _ _ "ab" none
    (List.Perm.swap ("d2", detY) ("d1", detX) [])

/-- Counterexample for C4 as stated: the same two detectors registered in
the two orders produce different `clean` outputs ("Xb" vs "Yb"): both
report the span `[0,1)`, the stable sort keeps registration order, and
the merged span keeps the first span's replacement. -/
theorem clean_order_dependent_cx :
    ([("d1", detX), ("d2", detY)] : List (String × DetFn)).Perm
        [("d2", detY), ("d1", detX)]
    ∧ clean ⟨[("d1", detX), ("d2", detY)], []⟩ "ab" = "Xb"
    ∧ clean ⟨[("d2", detY), ("d1", detX)], []⟩ "ab" = "Yb"
    ∧ clean ⟨[("d1", detX), ("d2", detY)], []⟩ "ab"
        ≠ clean ⟨[("d2", detY), ("d1", detX)], []⟩ "ab" := by
  refine ⟨List.Perm.swap _ _ _, by decide, by decide, by decide⟩

end Scrub
